import Mathlib

/-!
Verification development for the cache-engine repository: a shallow
embedding of `internal/cache/cache.go` and `internal/persistence/persistence.go`,
followed by theorems about the embedded operations.

The Go engine reads the wall clock inside each operation via
`time.Now().Unix()` (seconds, used by expiration checks) and
`time.Now().UnixNano()` (nanoseconds, used by last-access stamps and the
LRU scan).  The embedding passes the instant of each call explicitly as a
`Time` value carrying both readings; the several clock reads inside one
operation are collapsed to that single instant.  The `sync.RWMutex` and
the background-goroutine plumbing (`stopClean`, `periodicCleanup`) are not
part of the sequential semantics and are not modelled; `logFile` is always
the empty string in the modelled paths (the logging branches in the Go
code are empty comments).  The Go `map[string]*CacheEntry` is modelled as
an association list scanned in list order: one concrete instance of Go's
unspecified map iteration order.
-/

namespace CacheSpec

/-- One wall-clock instant, with its two readings used by the Go code:
`sec` is `time.Now().Unix()` and `nano` is `time.Now().UnixNano()`. -/
structure Time where
  sec : Int
  nano : Int
deriving DecidableEq

/-- Go struct `CacheEntry` from `internal/cache/cache.go`: stored value,
`ExpiresAt` (0 = no expiration) and `LastAccess` (for LRU).  The opaque
`interface\x7b\x7d` payload is a type parameter `V`. -/
structure CacheEntry (V : Type) where
  Value : V
  ExpiresAt : Int
  LastAccess : Int
deriving DecidableEq

variable {V : Type}

/-- Go map read `c.data[key]`. -/
def lookupKey (k : String) : List (String × CacheEntry V) → Option (CacheEntry V)
  | [] => none
  | (k', e) :: rest => if k' = k then some e else lookupKey k rest

/-- Go map write `c.data[key] = &entry`: replace in place when the key is
present, append when absent. -/
def setEntry (k : String) (e : CacheEntry V) :
    List (String × CacheEntry V) → List (String × CacheEntry V)
  | [] => [(k, e)]
  | (k', e') :: rest => if k' = k then (k, e) :: rest else (k', e') :: setEntry k e rest

/-- Go map delete `delete(c.data, key)`. -/
def eraseKey (k : String) :
    List (String × CacheEntry V) → List (String × CacheEntry V)
  | [] => []
  | (k', e') :: rest => if k' = k then rest else (k', e') :: eraseKey k rest

/-- Go struct `CacheEngine` from `internal/cache/cache.go`: the entry table and the
`maxEntries` bound.  Mutex, stop channel and log-file name are omitted
(see the module comment). -/
structure CacheEngine (V : Type) where
  data : List (String × CacheEntry V)
  maxEntries : Int
deriving DecidableEq

/-- Constructor `NewCacheEngine`: a non-positive bound falls back to the default 1000. -/
def NewCacheEngine (V : Type) (maxEntries : Int) : CacheEngine V :=
  { data := [], maxEntries := if maxEntries ≤ 0 then 1000 else maxEntries }

/-- The scan loop of `evictLRU`: `oldestKey` starts as `""`, `oldestTime`
starts as the current `UnixNano`, and every entry with a strictly smaller
`LastAccess` becomes the new candidate. -/
def findOldest (oldestKey : String) (oldestTime : Int) :
    List (String × CacheEntry V) → String × Int
  | [] => (oldestKey, oldestTime)
  | (key, entry) :: rest =>
    if entry.LastAccess < oldestTime then findOldest key entry.LastAccess rest
    else findOldest oldestKey oldestTime rest

/-- Eviction `evictLRU`: find the least-recently-accessed entry and delete it —
but only when the found key is not the empty string (`if oldestKey != ""`). -/
def evictLRU (c : CacheEngine V) (nowNano : Int) : CacheEngine V :=
  let r := findOldest "" nowNano c.data
  if r.1 ≠ "" then { c with data := eraseKey r.1 c.data } else c

/-- Operation `Set`: when `len(c.data) >= c.maxEntries` run `evictLRU` first (before
any key-existence check), then write the entry with `ExpiresAt = 0` and
`LastAccess = now`. -/
def Set (c : CacheEngine V) (key : String) (value : V) (t : Time) : CacheEngine V :=
  let c1 := if (c.data.length : Int) ≥ c.maxEntries then evictLRU c t.nano else c
  { c1 with data := setEntry key { Value := value, ExpiresAt := 0, LastAccess := t.nano } c1.data }

/-- Operation `Get`: absent gives `(nil, false)`; an entry with `ExpiresAt > 0 &&
ExpiresAt <= now` (seconds) is deleted and reported absent; otherwise
`LastAccess` is refreshed to `UnixNano` and the value returned. -/
def Get (c : CacheEngine V) (key : String) (t : Time) :
    (Option V × Bool) × CacheEngine V :=
  match lookupKey key c.data with
  | none => ((none, false), c)
  | some entry =>
    if 0 < entry.ExpiresAt ∧ entry.ExpiresAt ≤ t.sec then
      ((none, false), { c with data := eraseKey key c.data })
    else
      ((some entry.Value, true),
        { c with data := setEntry key { entry with LastAccess := t.nano } c.data })

/-- Operation `Delete`: remove the key when present, return whether it existed. -/
def Delete (c : CacheEngine V) (key : String) : CacheEngine V × Bool :=
  match lookupKey key c.data with
  | none => (c, false)
  | some _ => ({ c with data := eraseKey key c.data }, true)

/-- Operation `Expire`: `false` when the key is absent; otherwise store
`ExpiresAt = time.Now().Unix() + seconds` and return `true`. -/
def Expire (c : CacheEngine V) (key : String) (seconds : Int) (t : Time) :
    CacheEngine V × Bool :=
  match lookupKey key c.data with
  | none => (c, false)
  | some entry =>
    ({ c with data := setEntry key { entry with ExpiresAt := t.sec + seconds } c.data }, true)

/-- Operation `Size`: `len(c.data)` as a Go `int`. -/
def Size (c : CacheEngine V) : Int := (c.data.length : Int)

/-- Accessor `MaxEntries`. -/
def MaxEntries (c : CacheEngine V) : Int := c.maxEntries

/-- Operation `ImportData`: `c.data = data`, a wholesale replacement with no
capacity check. -/
def ImportData (c : CacheEngine V) (d : List (String × CacheEntry V)) : CacheEngine V :=
  { c with data := d }

/-- A sequence of `Set` calls, each at its own instant. -/
def SetSeq (c : CacheEngine V) : List (String × V × Time) → CacheEngine V
  | [] => c
  | (key, v, t) :: rest => SetSeq (Set c key v t) rest

/-- Go struct `LogEntry` from `internal/persistence/persistence.go`. -/
structure LogEntry (V : Type) where
  Operation : String
  Key : String
  Value : V
  ExpiresAt : Int
  Timestamp : Int
deriving DecidableEq

/-- The `switch logEntry.Operation` body of the replay loop in
`LoadFromLog`: `SET` re-inserts the value and, when an expiration was
recorded and the recomputed relative TTL `ExpiresAt - Timestamp` is
positive, applies `Expire`; `DEL` deletes; `EXPIRE` recomputes and applies
the TTL; any other operation is ignored (no `default` case). -/
def applyLogRecord (c : CacheEngine V) (e : LogEntry V) (t : Time) : CacheEngine V :=
  if e.Operation = "SET" then
    let c1 := Set c e.Key e.Value t
    if 0 < e.ExpiresAt then
      if 0 < e.ExpiresAt - e.Timestamp then (Expire c1 e.Key (e.ExpiresAt - e.Timestamp) t).1
      else c1
    else c1
  else if e.Operation = "DEL" then (Delete c e.Key).1
  else if e.Operation = "EXPIRE" then
    if 0 < e.ExpiresAt - e.Timestamp then (Expire c e.Key (e.ExpiresAt - e.Timestamp) t).1
    else c
  else c

/-- One step of the `json.Decoder.Decode` loop in `LoadFromLog`: either a
decoded record (together with the instant at which it is applied), or an
error whose message the Go code compares against the string `"EOF"`.
Per the Go standard library, `Decode` yields `io.EOF` (message `"EOF"`)
exactly at a clean end of input — including after a final complete record
with no trailing newline — `io.ErrUnexpectedEOF` (message
`"unexpected EOF"`) when the input ends inside a truncated record, and a
syntax-error message for a malformed record. -/
inductive DecodeOutcome (V : Type) where
  | ok (e : LogEntry V) (t : Time)
  | fail (msg : String)
deriving DecidableEq

/-- The replay loop of `LoadFromLog`, over the stream of decoder
outcomes: apply each decoded record; on a decode error, stop — reporting
success only when the message is exactly `"EOF"`, and otherwise returning
the wrapped error.  The result pairs the engine state (mutated in place
in Go) with the returned error, `none` meaning `nil`. -/
def LoadFromLog (c : CacheEngine V) : List (DecodeOutcome V) → CacheEngine V × Option String
  | [] => (c, none)
  | DecodeOutcome.ok e t :: rest => LoadFromLog (applyLogRecord c e t) rest
  | DecodeOutcome.fail msg :: _ =>
    if msg = "EOF" then (c, none)
    else (c, some ("error al leer entrada del log: " ++ msg))

/-! ### Table lemmas -/

theorem mem_setEntry {k : String} {e : CacheEntry V} {l : List (String × CacheEntry V)}
    {p : String × CacheEntry V} (h : p ∈ setEntry k e l) : p = (k, e) ∨ p ∈ l := by
  induction l with
  | nil => simpa [setEntry] using h
  | cons q rest ih =>
    obtain ⟨k', e'⟩ := q
    by_cases hk : k' = k
    · rw [setEntry, if_pos hk] at h
      rcases List.mem_cons.mp h with h1 | h1
      · exact Or.inl h1
      · exact Or.inr (List.mem_cons_of_mem _ h1)
    · rw [setEntry, if_neg hk] at h
      rcases List.mem_cons.mp h with h1 | h1
      · exact Or.inr (h1 ▸ List.mem_cons_self _ _)
      · rcases ih h1 with h2 | h2
        · exact Or.inl h2
        · exact Or.inr (List.mem_cons_of_mem _ h2)

theorem mem_eraseKey {k : String} {l : List (String × CacheEntry V)}
    {p : String × CacheEntry V} (h : p ∈ eraseKey k l) : p ∈ l := by
  induction l with
  | nil => simp [eraseKey] at h
  | cons q rest ih =>
    obtain ⟨k', e'⟩ := q
    by_cases hk : k' = k
    · rw [eraseKey, if_pos hk] at h
      exact List.mem_cons_of_mem _ h
    · rw [eraseKey, if_neg hk] at h
      rcases List.mem_cons.mp h with h1 | h1
      · exact h1 ▸ List.mem_cons_self _ _
      · exact List.mem_cons_of_mem _ (ih h1)

theorem length_setEntry_le (k : String) (e : CacheEntry V)
    (l : List (String × CacheEntry V)) : (setEntry k e l).length ≤ l.length + 1 := by
  induction l with
  | nil => simp [setEntry]
  | cons q rest ih =>
    obtain ⟨k', e'⟩ := q
    by_cases hk : k' = k
    · rw [setEntry, if_pos hk]; simp
    · rw [setEntry, if_neg hk]; simpa using Nat.succ_le_succ ih

theorem length_setEntry_of_lookup_none {k : String} (e : CacheEntry V)
    {l : List (String × CacheEntry V)} (h : lookupKey k l = none) :
    (setEntry k e l).length = l.length + 1 := by
  induction l with
  | nil => simp [setEntry]
  | cons q rest ih =>
    obtain ⟨k', e'⟩ := q
    by_cases hk : k' = k
    · rw [lookupKey, if_pos hk] at h
      exact absurd h (by simp)
    · rw [lookupKey, if_neg hk] at h
      rw [setEntry, if_neg hk]
      simpa using ih h

theorem length_eraseKey_of_mem_keys {k : String} {l : List (String × CacheEntry V)}
    (h : k ∈ l.map Prod.fst) : (eraseKey k l).length + 1 = l.length := by
  induction l with
  | nil => simp at h
  | cons q rest ih =>
    obtain ⟨k', e'⟩ := q
    by_cases hk : k' = k
    · rw [eraseKey, if_pos hk]; simp
    · rw [eraseKey, if_neg hk]
      have h' : k ∈ rest.map Prod.fst := by
        rcases List.mem_map.mp h with ⟨p, hp, hpk⟩
        rcases List.mem_cons.mp hp with h1 | h1
        · exact absurd (by rw [h1] at hpk; exact hpk) hk
        · exact List.mem_map.mpr ⟨p, h1, hpk⟩
      simpa using ih h'

theorem lookupKey_setEntry_self (k : String) (e : CacheEntry V)
    (l : List (String × CacheEntry V)) : lookupKey k (setEntry k e l) = some e := by
  induction l with
  | nil => simp [setEntry, lookupKey]
  | cons q rest ih =>
    obtain ⟨k', e'⟩ := q
    by_cases hk : k' = k
    · rw [setEntry, if_pos hk, lookupKey, if_pos rfl]
    · rw [setEntry, if_neg hk, lookupKey, if_neg hk]
      exact ih

/-! ### Lemmas about the LRU scan -/

theorem findOldest_snd_le (l : List (String × CacheEntry V)) :
    ∀ (k0 : String) (t0 : Int), (findOldest k0 t0 l).2 ≤ t0 := by
  induction l with
  | nil => intro k0 t0; simp [findOldest]
  | cons q rest ih =>
    intro k0 t0
    obtain ⟨k', e'⟩ := q
    rw [findOldest]
    by_cases h : e'.LastAccess < t0
    · rw [if_pos h]; exact le_trans (ih k' e'.LastAccess) (le_of_lt h)
    · rw [if_neg h]; exact ih k0 t0

theorem findOldest_snd_le_mem {l : List (String × CacheEntry V)}
    {p : String × CacheEntry V} (hp : p ∈ l) :
    ∀ (k0 : String) (t0 : Int), (findOldest k0 t0 l).2 ≤ p.2.LastAccess := by
  induction l with
  | nil => simp at hp
  | cons q rest ih =>
    intro k0 t0
    obtain ⟨k', e'⟩ := q
    rw [findOldest]
    rcases List.mem_cons.mp hp with h1 | h1
    · by_cases h : e'.LastAccess < t0
      · rw [if_pos h, h1]
        exact findOldest_snd_le rest k' e'.LastAccess
      · rw [if_neg h, h1]
        exact le_trans (findOldest_snd_le rest k0 t0) (not_lt.mp h)
    · by_cases h : e'.LastAccess < t0
      · rw [if_pos h]; exact ih h1 k' e'.LastAccess
      · rw [if_neg h]; exact ih h1 k0 t0

theorem findOldest_eq_of_snd_eq {l : List (String × CacheEntry V)} :
    ∀ {k0 : String} {t0 : Int}, (findOldest k0 t0 l).2 = t0 →
      findOldest k0 t0 l = (k0, t0) := by
  induction l with
  | nil => intro k0 t0 _; rfl
  | cons q rest ih =>
    intro k0 t0 h
    obtain ⟨k', e'⟩ := q
    rw [findOldest] at h ⊢
    by_cases hc : e'.LastAccess < t0
    · rw [if_pos hc] at h
      have := findOldest_snd_le rest k' e'.LastAccess
      omega
    · rw [if_neg hc] at h ⊢
      exact ih h

theorem findOldest_mem_of_snd_lt {l : List (String × CacheEntry V)} :
    ∀ {k0 : String} {t0 : Int}, (findOldest k0 t0 l).2 < t0 →
      ∃ e, ((findOldest k0 t0 l).1, e) ∈ l ∧
        e.LastAccess = (findOldest k0 t0 l).2 := by
  induction l with
  | nil => intro k0 t0 h; simp [findOldest] at h
  | cons q rest ih =>
    intro k0 t0 h
    obtain ⟨k', e'⟩ := q
    rw [findOldest] at h ⊢
    by_cases hc : e'.LastAccess < t0
    · rw [if_pos hc] at h ⊢
      have hle := findOldest_snd_le rest k' e'.LastAccess
      rcases lt_or_eq_of_le hle with hlt | heq
      · obtain ⟨e, hmem, hLA⟩ := ih hlt
        exact ⟨e, List.mem_cons_of_mem _ hmem, hLA⟩
      · rw [findOldest_eq_of_snd_eq heq]
        exact ⟨e', List.mem_cons_self _ _, rfl⟩
    · rw [if_neg hc] at h ⊢
      obtain ⟨e, hmem, hLA⟩ := ih h
      exact ⟨e, List.mem_cons_of_mem _ hmem, hLA⟩

/-! ### Lemmas about eviction and `Set` -/

theorem mem_evictLRU {c : CacheEngine V} {nowNano : Int}
    {p : String × CacheEntry V} (h : p ∈ (evictLRU c nowNano).data) : p ∈ c.data := by
  simp only [evictLRU] at h
  split at h
  · exact mem_eraseKey h
  · exact h

theorem maxEntries_evictLRU (c : CacheEngine V) (nowNano : Int) :
    (evictLRU c nowNano).maxEntries = c.maxEntries := by
  simp only [evictLRU]
  split <;> rfl

theorem maxEntries_Set (c : CacheEngine V) (key : String) (v : V) (t : Time) :
    (Set c key v t).maxEntries = c.maxEntries := by
  simp only [Set]
  split
  · exact maxEntries_evictLRU c t.nano
  · rfl

theorem mem_Set {c : CacheEngine V} {key : String} {v : V} {t : Time}
    {p : String × CacheEntry V} (h : p ∈ (Set c key v t).data) :
    p = (key, ⟨v, 0, t.nano⟩) ∨ p ∈ c.data := by
  simp only [Set] at h
  rcases mem_setEntry h with h1 | h1
  · exact Or.inl h1
  · right
    rcases lt_or_ge ((c.data.length : Int)) c.maxEntries with hc | hc
    · rwa [if_neg (not_le.mpr hc)] at h1
    · rw [if_pos hc] at h1
      exact mem_evictLRU h1

theorem evictLRU_removes_min (c : CacheEngine V) (nowNano : Int)
    (h : (findOldest "" nowNano c.data).1 ≠ "") :
    ∃ e, ((findOldest "" nowNano c.data).1, e) ∈ c.data ∧
      (∀ p ∈ c.data, e.LastAccess ≤ p.2.LastAccess) ∧
      evictLRU c nowNano =
        { c with data := eraseKey (findOldest "" nowNano c.data).1 c.data } := by
  have hle := findOldest_snd_le c.data "" nowNano
  rcases lt_or_eq_of_le hle with hlt | heq
  · obtain ⟨e, hmem, hLA⟩ := findOldest_mem_of_snd_lt hlt
    refine ⟨e, hmem, ?_, ?_⟩
    · intro p hp
      rw [hLA]
      exact findOldest_snd_le_mem hp "" nowNano
    · simp only [evictLRU]
      rw [if_pos h]
  · exact absurd (congrArg Prod.fst (findOldest_eq_of_snd_eq heq)) h

theorem evictLRU_eq_self (c : CacheEngine V) (nowNano : Int)
    (h : (findOldest "" nowNano c.data).1 = "") : evictLRU c nowNano = c := by
  simp only [evictLRU]
  rw [if_neg (by simpa using h)]

theorem length_evictLRU (c : CacheEngine V) (nowNano : Int)
    (hne : c.data ≠ [])
    (hkeys : ∀ p ∈ c.data, p.1 ≠ "")
    (hlt : ∀ p ∈ c.data, p.2.LastAccess < nowNano) :
    ((evictLRU c nowNano).data).length + 1 = c.data.length := by
  obtain ⟨p0, hp0⟩ := List.exists_mem_of_ne_nil c.data hne
  have h2 : (findOldest "" nowNano c.data).2 < nowNano :=
    lt_of_le_of_lt (findOldest_snd_le_mem hp0 "" nowNano) (hlt p0 hp0)
  obtain ⟨e, hmem, _⟩ := findOldest_mem_of_snd_lt h2
  have hk : (findOldest "" nowNano c.data).1 ≠ "" :=
    hkeys ((findOldest "" nowNano c.data).1, e) hmem
  simp only [evictLRU]
  rw [if_pos hk]
  exact length_eraseKey_of_mem_keys (List.mem_map_of_mem Prod.fst hmem)

theorem Size_Set_le (c : CacheEngine V) (key : String) (v : V) (t : Time)
    (hcap : 1 ≤ c.maxEntries) (hsize : Size c ≤ c.maxEntries)
    (hkeys : ∀ p ∈ c.data, p.1 ≠ "")
    (hlt : ∀ p ∈ c.data, p.2.LastAccess < t.nano) :
    Size (Set c key v t) ≤ c.maxEntries := by
  have hsz : (c.data.length : Int) ≤ c.maxEntries := hsize
  simp only [Set, Size]
  by_cases hc : (c.data.length : Int) ≥ c.maxEntries
  · rw [if_pos hc]
    have hne : c.data ≠ [] := by
      intro h0
      rw [h0] at hc
      simp at hc
      omega
    have hlen := length_evictLRU c t.nano hne hkeys hlt
    have hsle := length_setEntry_le key ⟨v, 0, t.nano⟩ (evictLRU c t.nano).data
    omega
  · rw [if_neg hc]
    have hsle := length_setEntry_le key ⟨v, 0, t.nano⟩ c.data
    omega

theorem Size_SetSeq_le (ops : List (String × V × Time)) :
    ∀ (c : CacheEngine V),
      1 ≤ c.maxEntries → Size c ≤ c.maxEntries →
      (∀ p ∈ c.data, p.1 ≠ "") →
      (∀ op ∈ ops, op.1 ≠ "") →
      ((ops.map fun op => op.2.2.nano).Pairwise (· < ·)) →
      (∀ p ∈ c.data, ∀ op ∈ ops, p.2.LastAccess < op.2.2.nano) →
      Size (SetSeq c ops) ≤ c.maxEntries := by
  induction ops with
  | nil =>
    intro c _ hsize _ _ _ _
    simpa [SetSeq] using hsize
  | cons op rest ih =>
    intro c hcap hsize hk hok hpw hsep
    obtain ⟨key, v, t⟩ := op
    rw [SetSeq]
    have hlt : ∀ p ∈ c.data, p.2.LastAccess < t.nano :=
      fun p hp => hsep p hp (key, v, t) (List.mem_cons_self _ _)
    have hmax : (Set c key v t).maxEntries = c.maxEntries := maxEntries_Set c key v t
    have hpw0 : ((t.nano :: rest.map fun op => op.2.2.nano).Pairwise (· < ·)) := by
      simpa using hpw
    have hhd : ∀ b ∈ rest.map fun op => op.2.2.nano, t.nano < b :=
      (List.pairwise_cons.mp hpw0).1
    have h1 : Size (Set c key v t) ≤ c.maxEntries :=
      Size_Set_le c key v t hcap hsize hk hlt
    have hres := ih (Set c key v t)
      (by rw [hmax]; exact hcap)
      (by rw [hmax]; exact h1)
      (by
        intro p hp
        rcases mem_Set hp with h2 | h2
        · rw [h2]
          exact hok (key, v, t) (List.mem_cons_self _ _)
        · exact hk p h2)
      (fun op' hop' => hok op' (List.mem_cons_of_mem _ hop'))
      (List.pairwise_cons.mp hpw0).2
      (by
        intro p hp op' hop'
        rcases mem_Set hp with h2 | h2
        · rw [h2]
          exact hhd op'.2.2.nano (List.mem_map_of_mem _ hop')
        · exact hsep p h2 op' (List.mem_cons_of_mem _ hop'))
    rw [hmax] at hres
    exact hres

/-! ### Unfolding equations for `Get` and `Expire` -/

theorem Get_eq_of_lookup_none (c : CacheEngine V) (key : String) (t : Time)
    (h : lookupKey key c.data = none) : Get c key t = ((none, false), c) := by
  unfold Get
  rw [h]

theorem Get_eq_of_lookup_some (c : CacheEngine V) (key : String) (t : Time)
    (e : CacheEntry V) (h : lookupKey key c.data = some e) :
    Get c key t =
      if 0 < e.ExpiresAt ∧ e.ExpiresAt ≤ t.sec then
        ((none, false), { c with data := eraseKey key c.data })
      else
        ((some e.Value, true),
          { c with data := setEntry key { e with LastAccess := t.nano } c.data }) := by
  unfold Get
  rw [h]

theorem Expire_eq_of_lookup_none (c : CacheEngine V) (key : String) (seconds : Int)
    (t : Time) (h : lookupKey key c.data = none) :
    Expire c key seconds t = (c, false) := by
  unfold Expire
  rw [h]

theorem Expire_eq_of_lookup_some (c : CacheEngine V) (key : String) (seconds : Int)
    (t : Time) (e : CacheEntry V) (h : lookupKey key c.data = some e) :
    Expire c key seconds t =
      ({ c with data := setEntry key { e with ExpiresAt := t.sec + seconds } c.data }, true) := by
  unfold Expire
  rw [h]

/-! ### Claim theorems -/

/-- C1: the claim fails on the code.  `Set` runs the capacity check before
any key-existence check, so at exactly full capacity (size 2, capacity 2)
overwriting the already-present key `"b"` evicts the least-recently-used
key `"a"` and drops `Size` from 2 to 1 — the spec requires that an
overwrite evict nothing and leave `Size` unchanged. -/
theorem C1_overwrite_at_capacity_evicts :
    Size (⟨[("a", ⟨"va", 0, 1⟩), ("b", ⟨"vb", 0, 2⟩)], 2⟩ : CacheEngine String) = 2 ∧
    MaxEntries (⟨[("a", ⟨"va", 0, 1⟩), ("b", ⟨"vb", 0, 2⟩)], 2⟩ : CacheEngine String) = 2 ∧
    lookupKey "b" ([("a", ⟨"va", 0, 1⟩), ("b", ⟨"vb", 0, 2⟩)] :
      List (String × CacheEntry String)) = some ⟨"vb", 0, 2⟩ ∧
    lookupKey "a" (Set (⟨[("a", ⟨"va", 0, 1⟩), ("b", ⟨"vb", 0, 2⟩)], 2⟩ : CacheEngine String)
      "b" "vb2" ⟨0, 3⟩).data = none ∧
    Size (Set (⟨[("a", ⟨"va", 0, 1⟩), ("b", ⟨"vb", 0, 2⟩)], 2⟩ : CacheEngine String)
      "b" "vb2" ⟨0, 3⟩) = 1 := by
  decide

/-- C2 is refuted as stated: with capacity 1, the two pairwise-distinct
keys `""` and `"a"` (at strictly increasing instants) leave the freshly
constructed engine with `Size = 2 > 1 = Capacity`, because `evictLRU`
refuses to delete the entry whose key is the empty string. -/
theorem C2_counterexample :
    ((([("", "x", (⟨0, 1⟩ : Time)), ("a", "y", ⟨0, 2⟩)]).map fun op => op.1).Pairwise (· ≠ ·)) ∧
    ((([("", "x", (⟨0, 1⟩ : Time)), ("a", "y", ⟨0, 2⟩)]).map fun op => op.2.2.nano).Pairwise (· < ·)) ∧
    MaxEntries (NewCacheEngine String 1) = 1 ∧
    Size (SetSeq (NewCacheEngine String 1) [("", "x", ⟨0, 1⟩), ("a", "y", ⟨0, 2⟩)]) = 2 := by
  decide

/-- C2 (amended): for every sequence of `Set` calls with pairwise-distinct
NON-EMPTY keys, made at strictly increasing instants, starting from a
freshly constructed engine, after each call (i.e. after every prefix of
the sequence) `Size() ≤ Capacity()` holds. -/
theorem C2_capacity_invariant (V : Type) (m : Int) (ops : List (String × V × Time))
    (hdist : (ops.map fun op => op.1).Pairwise (· ≠ ·))
    (hne : ∀ op ∈ ops, op.1 ≠ "")
    (hmono : (ops.map fun op => op.2.2.nano).Pairwise (· < ·)) :
    ∀ pre suf, ops = pre ++ suf →
      Size (SetSeq (NewCacheEngine V m) pre) ≤ MaxEntries (NewCacheEngine V m) := by
  intro pre suf hsplit
  subst hsplit
  have hcap : 1 ≤ (NewCacheEngine V m).maxEntries := by
    show 1 ≤ if m ≤ 0 then (1000 : Int) else m
    split <;> omega
  have hzero : Size (NewCacheEngine V m) = 0 := by
    simp [Size, NewCacheEngine]
  have hpre : ((pre.map fun op => op.2.2.nano).Pairwise (· < ·)) := by
    rw [List.map_append] at hmono
    exact (List.pairwise_append.mp hmono).1
  exact Size_SetSeq_le pre (NewCacheEngine V m) hcap
    (by rw [hzero]; omega)
    (by intro p hp; simp [NewCacheEngine] at hp)
    (fun op hop => hne op (List.mem_append_left suf hop))
    hpre
    (by intro p hp; simp [NewCacheEngine] at hp)

/-- Witness for C2: a concrete admissible sequence (`"a" "b" "c"` at
instants 1 2 3, capacity 2) and the prefix of its first two calls. -/
theorem C2_witness :
    Size (SetSeq (NewCacheEngine String 2) [("a", "x", ⟨0, 1⟩), ("b", "y", ⟨0, 2⟩)]) ≤
      MaxEntries (NewCacheEngine String 2) :=
  C2_capacity_invariant String 2
    [("a", "x", ⟨0, 1⟩), ("b", "y", ⟨0, 2⟩), ("c", "z", ⟨0, 3⟩)]
    (by decide) (by decide) (by decide)
    [("a", "x", ⟨0, 1⟩), ("b", "y", ⟨0, 2⟩)] [("c", "z", ⟨0, 3⟩)] rfl

/-- The LRU scenario at capacity 3 (it mirrors `TestLRUEviction`): insert
`k1 k2 k3` at instants 1 2 3, touch `k1` then `k2` via `Get` at instants
4 and 5, then insert the distinct key `k4` at instant 6; `k3` is the
untouched key. -/
def lruScenario : CacheEngine String :=
  Set ((Get ((Get (Set (Set (Set (NewCacheEngine String 3) "k1" "v1" ⟨1, 1⟩)
    "k2" "v2" ⟨2, 2⟩) "k3" "v3" ⟨3, 3⟩) "k1" ⟨4, 4⟩).2) "k2" ⟨5, 5⟩).2) "k4" "v4" ⟨6, 6⟩

/-- C3: a `Set` stamps the written key's `LastAccess` with the current
instant; a `Get` that returns a value restamps `LastAccess` with the
current instant; whenever `evictLRU` removes an entry, that entry has the
minimum `LastAccess` over the whole table; and in the capacity-3 scenario
the single untouched key `k3` is evicted while `k1`, `k2`, `k4` remain
retrievable. -/
theorem C3_eviction_removes_least_recently_used :
    (∀ (W : Type) (c : CacheEngine W) (key : String) (v : W) (t : Time),
        lookupKey key (Set c key v t).data = some ⟨v, 0, t.nano⟩) ∧
    (∀ (W : Type) (c : CacheEngine W) (key : String) (e : CacheEntry W) (t : Time),
        lookupKey key c.data = some e →
        ¬(0 < e.ExpiresAt ∧ e.ExpiresAt ≤ t.sec) →
        (Get c key t).1 = (some e.Value, true) ∧
        lookupKey key ((Get c key t).2).data = some { e with LastAccess := t.nano }) ∧
    (∀ (W : Type) (c : CacheEngine W) (nowNano : Int),
        (findOldest "" nowNano c.data).1 ≠ "" →
        ∃ e, ((findOldest "" nowNano c.data).1, e) ∈ c.data ∧
          (∀ p ∈ c.data, e.LastAccess ≤ p.2.LastAccess) ∧
          evictLRU c nowNano =
            { c with data := eraseKey (findOldest "" nowNano c.data).1 c.data }) ∧
    (lookupKey "k3" lruScenario.data = none ∧ Size lruScenario = 3 ∧
      (Get lruScenario "k1" ⟨7, 7⟩).1.2 = true ∧
      (Get lruScenario "k2" ⟨8, 8⟩).1.2 = true ∧
      (Get lruScenario "k4" ⟨9, 9⟩).1.2 = true) := by
  refine ⟨?_, ?_, ?_, by decide⟩
  · intro W c key v t
    simp only [Set]
    exact lookupKey_setEntry_self key _ _
  · intro W c key e t h hn
    rw [Get_eq_of_lookup_some c key t e h, if_neg hn]
    exact ⟨rfl, lookupKey_setEntry_self key _ c.data⟩
  · intro W c nowNano hne
    exact evictLRU_removes_min c nowNano hne

/-- Witness for C3: the refresh-on-read conjunct at a concrete engine. -/
theorem C3_witness :
    (Get (⟨[("k", ⟨"v", 0, 1⟩)], 5⟩ : CacheEngine String) "k" ⟨2, 7⟩).1 = (some "v", true) ∧
    lookupKey "k" ((Get (⟨[("k", ⟨"v", 0, 1⟩)], 5⟩ : CacheEngine String) "k" ⟨2, 7⟩).2).data =
      some ⟨"v", 0, 7⟩ :=
  C3_eviction_removes_least_recently_used.2.1 String
    ⟨[("k", ⟨"v", 0, 1⟩)], 5⟩ "k" ⟨"v", 0, 1⟩ ⟨2, 7⟩ (by decide) (by decide)

/-- C4: `Get` returns `found = false` on an absent key; on a present entry
with `ExpiresAt > 0` and `ExpiresAt ≤ now` it deletes the entry and
returns `found = false`; otherwise it refreshes `LastAccess` to now and
returns the value with `found = true`. -/
theorem C4_get_semantics (V : Type) (c : CacheEngine V) (key : String) (t : Time) :
    (lookupKey key c.data = none → Get c key t = ((none, false), c)) ∧
    (∀ e, lookupKey key c.data = some e → 0 < e.ExpiresAt → e.ExpiresAt ≤ t.sec →
      Get c key t = ((none, false), { c with data := eraseKey key c.data })) ∧
    (∀ e, lookupKey key c.data = some e → ¬(0 < e.ExpiresAt ∧ e.ExpiresAt ≤ t.sec) →
      Get c key t = ((some e.Value, true),
        { c with data := setEntry key { e with LastAccess := t.nano } c.data })) := by
  refine ⟨fun h => Get_eq_of_lookup_none c key t h, fun e h h1 h2 => ?_, fun e h hn => ?_⟩
  · rw [Get_eq_of_lookup_some c key t e h, if_pos ⟨h1, h2⟩]
  · rw [Get_eq_of_lookup_some c key t e h, if_neg hn]

/-- Witness for C4: the lazy-expiration branch at a concrete engine —
`ExpiresAt = 3 ≤ 4 = now` deletes the entry and reports it absent. -/
theorem C4_witness :
    Get (⟨[("k", ⟨"v", 3, 1⟩)], 5⟩ : CacheEngine String) "k" ⟨4, 9⟩ =
      ((none, false), (⟨[], 5⟩ : CacheEngine String)) :=
  (C4_get_semantics String ⟨[("k", ⟨"v", 3, 1⟩)], 5⟩ "k" ⟨4, 9⟩).2.1
    ⟨"v", 3, 1⟩ (by decide) (by decide) (by decide)

/-- C5 is refuted as stated: `Expire` on key `"a"` with `ttl = -10` at
`now = 10` stores `ExpiresAt = 0`, which the expiry guard
`ExpiresAt > 0` treats as "no expiration" — the next `Get` still returns
the value, so the entry is NOT invisible. -/
theorem C5_counterexample :
    (Expire (⟨[("a", ⟨"v", 0, 1⟩)], 10⟩ : CacheEngine String) "a" (-10) ⟨10, 2⟩).2 = true ∧
    (Get (Expire (⟨[("a", ⟨"v", 0, 1⟩)], 10⟩ : CacheEngine String) "a" (-10) ⟨10, 2⟩).1
      "a" ⟨11, 3⟩).1 = (some "v", true) := by
  decide

/-- C5 (amended): `Expire` on an absent key returns `false` and changes
nothing; on a present key it stores `expires_at = now + ttl` and returns
`true`; a `ttl ≤ 0` makes the entry invisible on the next `Get` PROVIDED
`now + ttl > 0` (when `now + ttl ≤ 0` the stored `expires_at` fails the
positivity guard of the expiry check and the entry behaves as
never-expiring). -/
theorem C5_expire_semantics (V : Type) (c : CacheEngine V) (key : String)
    (s : Int) (t t' : Time) :
    (lookupKey key c.data = none → Expire c key s t = (c, false)) ∧
    (∀ e, lookupKey key c.data = some e →
      Expire c key s t =
        ({ c with data := setEntry key { e with ExpiresAt := t.sec + s } c.data }, true)) ∧
    (∀ e, lookupKey key c.data = some e → s ≤ 0 → 0 < t.sec + s → t.sec ≤ t'.sec →
      (Get (Expire c key s t).1 key t').1 = (none, false)) := by
  refine ⟨fun h => Expire_eq_of_lookup_none c key s t h,
    fun e h => Expire_eq_of_lookup_some c key s t e h,
    fun e h hs h0 ht => ?_⟩
  have h2 : lookupKey key ((Expire c key s t).1).data =
      some { e with ExpiresAt := t.sec + s } := by
    rw [Expire_eq_of_lookup_some c key s t e h]
    exact lookupKey_setEntry_self key _ c.data
  rw [Get_eq_of_lookup_some (Expire c key s t).1 key t' { e with ExpiresAt := t.sec + s } h2]
  have hcond : 0 < ({ e with ExpiresAt := t.sec + s } : CacheEntry V).ExpiresAt ∧
      ({ e with ExpiresAt := t.sec + s } : CacheEntry V).ExpiresAt ≤ t'.sec := by
    refine ⟨h0, ?_⟩
    show t.sec + s ≤ t'.sec
    omega
  rw [if_pos hcond]

/-- Witness for C5: `ttl = -3` at `now = 10` leaves `ExpiresAt = 7 > 0`,
so the next `Get` (at 11) reports the entry absent, as amended. -/
theorem C5_witness :
    (Get (Expire (⟨[("a", ⟨"v", 0, 1⟩)], 10⟩ : CacheEngine String) "a" (-3) ⟨10, 2⟩).1
      "a" ⟨11, 3⟩).1 = (none, false) :=
  (C5_expire_semantics String ⟨[("a", ⟨"v", 0, 1⟩)], 10⟩ "a" (-3) ⟨10, 2⟩ ⟨11, 3⟩).2.2
    ⟨"v", 0, 1⟩ (by decide) (by decide) (by decide) (by decide)

/-- C6: the claim fails on the code.  A truncated/partial record at
end-of-file makes `json.Decoder.Decode` return `io.ErrUnexpectedEOF`,
whose message `"unexpected EOF"` differs from the `"EOF"` the replay loop
compares against, so `LoadFromLog` returns an error instead of reporting
success. -/
theorem C6_truncated_tail_is_error :
    LoadFromLog (NewCacheEngine String 1000) [DecodeOutcome.fail "unexpected EOF"] =
      (NewCacheEngine String 1000, some "error al leer entrada del log: unexpected EOF") :=
  rfl

/-- C7: a malformed record before end-of-file (any decode error whose
message is not `"EOF"`) aborts replay with the wrapped error, ignores the
rest of the stream, and leaves the engine exactly in the state produced
by the records already applied. -/
theorem C7_malformed_record_aborts_replay (V : Type) (c : CacheEngine V)
    (pre : List (LogEntry V × Time)) (msg : String) (rest : List (DecodeOutcome V))
    (hmsg : msg ≠ "EOF") :
    LoadFromLog c
        (pre.map (fun p => DecodeOutcome.ok p.1 p.2) ++ DecodeOutcome.fail msg :: rest) =
      (pre.foldl (fun c' p => applyLogRecord c' p.1 p.2) c,
        some ("error al leer entrada del log: " ++ msg)) := by
  induction pre generalizing c with
  | nil =>
    simp only [List.map_nil, List.nil_append, List.foldl_nil, LoadFromLog]
    rw [if_neg hmsg]
  | cons p ps ih =>
    simp only [List.map_cons, List.cons_append, List.foldl_cons, LoadFromLog]
    exact ih (applyLogRecord c p.1 p.2)

/-- Witness for C7: one applied `SET` record, then a malformed record,
then a further record that is never reached. -/
theorem C7_witness :
    LoadFromLog (NewCacheEngine String 5)
        [DecodeOutcome.ok ⟨"SET", "k", "v", 0, 0⟩ ⟨1, 1⟩,
          DecodeOutcome.fail "invalid character",
          DecodeOutcome.ok ⟨"SET", "x", "y", 0, 0⟩ ⟨2, 2⟩] =
      (applyLogRecord (NewCacheEngine String 5) ⟨"SET", "k", "v", 0, 0⟩ ⟨1, 1⟩,
        some "error al leer entrada del log: invalid character") :=
  C7_malformed_record_aborts_replay String (NewCacheEngine String 5)
    [(⟨"SET", "k", "v", 0, 0⟩, ⟨1, 1⟩)] "invalid character"
    [DecodeOutcome.ok ⟨"SET", "x", "y", 0, 0⟩ ⟨2, 2⟩] (by decide)

/-- C8: `ImportData` replaces the whole table with exactly the given
entries — afterwards `Size` is the number of given entries, every lookup
reflects the given data, and the capacity bound is neither consulted nor
enforced (the equalities hold for data of any size). -/
theorem C8_import_replaces_table (V : Type) (c : CacheEngine V)
    (d : List (String × CacheEntry V)) (k : String) :
    (ImportData c d).data = d ∧
    Size (ImportData c d) = (d.length : Int) ∧
    MaxEntries (ImportData c d) = MaxEntries c ∧
    lookupKey k (ImportData c d).data = lookupKey k d :=
  ⟨rfl, rfl, rfl, rfl⟩

/-- C9: when the entry with the (unique) minimum `LastAccess` has the
empty string as its key, `evictLRU` removes nothing, and a `Set` of a new
key at full capacity then grows the table past the capacity bound. -/
theorem C9_empty_key_blocks_eviction (V : Type) (c : CacheEngine V)
    (em : CacheEntry V) (nowNano : Int)
    (hmem : ("", em) ∈ c.data)
    (hmin : ∀ p ∈ c.data, p.1 ≠ "" → em.LastAccess < p.2.LastAccess) :
    evictLRU c nowNano = c ∧
    (∀ (key : String) (v : V) (t : Time), t.nano = nowNano →
      lookupKey key c.data = none →
      c.maxEntries ≤ (c.data.length : Int) →
      Size (Set c key v t) = Size c + 1 ∧ MaxEntries c < Size (Set c key v t)) := by
  have hfst : (findOldest "" nowNano c.data).1 = "" := by
    by_contra hne
    obtain ⟨e, hm, hLA, _⟩ := evictLRU_removes_min c nowNano hne
    have h1 : em.LastAccess < e.LastAccess := hmin _ hm hne
    have h2 : e.LastAccess ≤ em.LastAccess := hLA ("", em) hmem
    omega
  refine ⟨evictLRU_eq_self c nowNano hfst, ?_⟩
  intro key v t ht hnone hcap
  have hge : (c.data.length : Int) ≥ c.maxEntries := hcap
  have hEv : evictLRU c t.nano = c := by
    rw [ht]
    exact evictLRU_eq_self c nowNano hfst
  have hlen : (setEntry key (⟨v, 0, t.nano⟩ : CacheEntry V) c.data).length =
      c.data.length + 1 :=
    length_setEntry_of_lookup_none ⟨v, 0, t.nano⟩ hnone
  simp only [Set, Size, MaxEntries]
  rw [if_pos hge, hEv]
  constructor <;> omega

/-- Witness for C9: capacity 2, table holding keys `""` (older) and `"x"`;
`evictLRU` removes nothing and `Set` of the new key `"y"` reaches size 3. -/
theorem C9_witness :
    evictLRU (⟨[("", ⟨"u", 0, 1⟩), ("x", ⟨"w", 0, 2⟩)], 2⟩ : CacheEngine String) 3 =
      (⟨[("", ⟨"u", 0, 1⟩), ("x", ⟨"w", 0, 2⟩)], 2⟩ : CacheEngine String) ∧
    (Size (Set (⟨[("", ⟨"u", 0, 1⟩), ("x", ⟨"w", 0, 2⟩)], 2⟩ : CacheEngine String)
        "y" "z" ⟨0, 3⟩) =
      Size (⟨[("", ⟨"u", 0, 1⟩), ("x", ⟨"w", 0, 2⟩)], 2⟩ : CacheEngine String) + 1 ∧
      MaxEntries (⟨[("", ⟨"u", 0, 1⟩), ("x", ⟨"w", 0, 2⟩)], 2⟩ : CacheEngine String) <
        Size (Set (⟨[("", ⟨"u", 0, 1⟩), ("x", ⟨"w", 0, 2⟩)], 2⟩ : CacheEngine String)
          "y" "z" ⟨0, 3⟩)) :=
  ⟨(C9_empty_key_blocks_eviction String
      ⟨[("", ⟨"u", 0, 1⟩), ("x", ⟨"w", 0, 2⟩)], 2⟩ ⟨"u", 0, 1⟩ 3
      (by decide) (by decide)).1,
    (C9_empty_key_blocks_eviction String
      ⟨[("", ⟨"u", 0, 1⟩), ("x", ⟨"w", 0, 2⟩)], 2⟩ ⟨"u", 0, 1⟩ 3
      (by decide) (by decide)).2 "y" "z" ⟨0, 3⟩ rfl (by decide) (by decide)⟩

/-- C10: `Expire` with a positive ttl on a present-but-already-expired
entry returns `true` and overwrites `expires_at` with a future time, so a
`Get` before that new deadline returns the old value with
`found = true` — the entry is resurrected. -/
theorem C10_expire_resurrects_expired_entry (V : Type) (c : CacheEngine V)
    (key : String) (e : CacheEntry V) (s : Int) (t t' : Time)
    (he : lookupKey key c.data = some e)
    (hpos : 0 < e.ExpiresAt) (hpast : e.ExpiresAt ≤ t.sec)
    (hs : 0 < s) (hmid : t.sec ≤ t'.sec) (hfresh : t'.sec < t.sec + s) :
    (Expire c key s t).2 = true ∧
    t.sec < t.sec + s ∧
    (Get (Expire c key s t).1 key t').1 = (some e.Value, true) := by
  have hE := Expire_eq_of_lookup_some c key s t e he
  refine ⟨by rw [hE], by omega, ?_⟩
  have h2 : lookupKey key ((Expire c key s t).1).data =
      some { e with ExpiresAt := t.sec + s } := by
    rw [hE]
    exact lookupKey_setEntry_self key _ c.data
  rw [Get_eq_of_lookup_some (Expire c key s t).1 key t' { e with ExpiresAt := t.sec + s } h2]
  have hno : ¬(0 < ({ e with ExpiresAt := t.sec + s } : CacheEntry V).ExpiresAt ∧
      ({ e with ExpiresAt := t.sec + s } : CacheEntry V).ExpiresAt ≤ t'.sec) := by
    intro hcon
    have h3 : t.sec + s ≤ t'.sec := hcon.2
    omega
  rw [if_neg hno]

/-- Witness for C10: an entry expired at 5, `Expire` with ttl 60 at
`now = 10`, then `Get` at 11 still finds the old value. -/
theorem C10_witness :
    (Expire (⟨[("k", ⟨"v", 5, 1⟩)], 5⟩ : CacheEngine String) "k" 60 ⟨10, 2⟩).2 = true ∧
    (10 : Int) < 10 + 60 ∧
    (Get (Expire (⟨[("k", ⟨"v", 5, 1⟩)], 5⟩ : CacheEngine String) "k" 60 ⟨10, 2⟩).1
      "k" ⟨11, 3⟩).1 = (some "v", true) :=
  C10_expire_resurrects_expired_entry String ⟨[("k", ⟨"v", 5, 1⟩)], 5⟩ "k"
    ⟨"v", 5, 1⟩ 60 ⟨10, 2⟩ ⟨11, 3⟩
    (by decide) (by decide) (by decide) (by decide) (by decide) (by decide)

end CacheSpec
